import Mathlib

/-!
Verification of the bundle content-addressing and storage-consistency engine.

This file gives a shallow embedding, in Lean, of the core of the Go
repository `jvzantvoort/bundle`: the checksum engine
(`checksum/main.go`), the directory walk used by `ChecksumFile.Compute`
(`filepath.Walk` with the walk function of `Compute`), manifest
save/load (`ChecksumFile.Save` / `ChecksumFile.Load`), verification
(`ChecksumFile.Verify`), the write lock (`lock/main.go`), pool import
(`pool` package) and bundle creation (`bundle.Create`).

Modelling conventions:
* Go byte slices are `List Nat` with entries below 256; Go strings are
  Lean `String`, and UTF-8 encoding is made explicit by `strBytes`.
  Go's built-in string comparison (used by `sort.Strings` and
  `sort.Slice`) is byte-wise lexicographic; since UTF-8 preserves
  codepoint order, it is embedded as codepoint-lexicographic
  comparison on `String.data` (`strLeB`).
* The filesystem seen by `filepath.Walk` is the inductive `FSEntry`:
  a directory is a chain of `dcons` cells listing its entries in the
  (sorted) order in which Go's `filepath.Walk` enumerates them.
* Fallible I/O is modelled with explicit state: functions that can
  observe an I/O failure take the failure as an explicit Boolean of
  the state (for example `PoolState.copyFails`), and the filesystem
  reads that the claims quantify over are total functions.
-/

/-! ## SHA-256 (crypto/sha256), executable over byte lists -/

/-- Truncate to 32 bits, the word size of SHA-256 arithmetic. -/
def w32 (n : Nat) : Nat := n % 4294967296

/-- Rotate a 32-bit word right by `k` bits. -/
def rotr32 (k x : Nat) : Nat := w32 ((x >>> k) ||| (x <<< (32 - k)))

/-- The 64 SHA-256 round constants. -/
def K256 : List Nat :=
  [1116352408, 1899447441, 3049323471, 3921009573, 961987163, 1508970993,
   2453635748, 2870763221, 3624381080, 310598401, 607225278, 1426881987,
   1925078388, 2162078206, 2614888103, 3248222580, 3835390401, 4022224774,
   264347078, 604807628, 770255983, 1249150122, 1555081692, 1996064986,
   2554220882, 2821834349, 2952996808, 3210313671, 3336571891, 3584528711,
   113926993, 338241895, 666307205, 773529912, 1294757372, 1396182291,
   1695183700, 1986661051, 2177026350, 2456956037, 2730485921, 2820302411,
   3259730800, 3345764771, 3516065817, 3600352804, 4094571909, 275423344,
   430227734, 506948616, 659060556, 883997877, 958139571, 1322822218,
   1537002063, 1747873779, 1955562222, 2024104815, 2227730452, 2361852424,
   2428436474, 2756734187, 3204031479, 3329325298]

/-- The initial SHA-256 hash state. -/
def H256 : List Nat :=
  [1779033703, 3144134277, 1013904242, 2773480762,
   1359893119, 2600822924, 528734635, 1541459225]

/-- SHA-256 padding: a 0x80 byte, zeros, then the bit length, big-endian in 8 bytes. -/
def sha256pad (msg : List Nat) : List Nat :=
  let len := msg.length
  let zeros := (64 - (len + 9) % 64) % 64
  let bitLen := len * 8
  msg ++ [0x80] ++ List.replicate zeros 0 ++
    [(bitLen / 2 ^ 56) % 256, (bitLen / 2 ^ 48) % 256, (bitLen / 2 ^ 40) % 256,
     (bitLen / 2 ^ 32) % 256, (bitLen / 2 ^ 24) % 256, (bitLen / 2 ^ 16) % 256,
     (bitLen / 2 ^ 8) % 256, bitLen % 256]

/-- Split into 64-byte blocks; the fuel argument keeps the recursion structural
so that proofs can evaluate it inside the kernel. -/
def chunksGo : Nat → List Nat → List (List Nat)
  | _, [] => []
  | 0, _ :: _ => []
  | fuel + 1, a :: l => (a :: l).take 64 :: chunksGo fuel ((a :: l).drop 64)

/-- Split a byte list into 64-byte blocks. -/
def chunks64 (l : List Nat) : List (List Nat) := chunksGo l.length l

/-- Big-endian 32-bit words from bytes. -/
def wordsOf : List Nat → List Nat
  | a :: b :: c :: d :: rest => (((a * 256 + b) * 256 + c) * 256 + d) :: wordsOf rest
  | _ => []

/-- SHA-256 message-schedule sigma-0. -/
def smallSigma0 (x : Nat) : Nat := (rotr32 7 x) ^^^ (rotr32 18 x) ^^^ (x >>> 3)

/-- SHA-256 message-schedule sigma-1. -/
def smallSigma1 (x : Nat) : Nat := (rotr32 17 x) ^^^ (rotr32 19 x) ^^^ (x >>> 10)

/-- SHA-256 compression Sigma-0. -/
def bigSigma0 (x : Nat) : Nat := (rotr32 2 x) ^^^ (rotr32 13 x) ^^^ (rotr32 22 x)

/-- SHA-256 compression Sigma-1. -/
def bigSigma1 (x : Nat) : Nat := (rotr32 6 x) ^^^ (rotr32 11 x) ^^^ (rotr32 25 x)

/-- Extend the 16 message words by `n` more; `ws` holds the words so far, newest first. -/
def extendWords : Nat → List Nat → List Nat
  | 0, ws => ws.reverse
  | n + 1, ws =>
    extendWords n
      (w32 (smallSigma1 (ws.getD 1 0) + ws.getD 6 0 + smallSigma0 (ws.getD 14 0) + ws.getD 15 0)
        :: ws)

/-- The eight working variables of the SHA-256 compression loop. -/
structure Hash8 where
  a : Nat
  b : Nat
  c : Nat
  d : Nat
  e : Nat
  f : Nat
  g : Nat
  h : Nat

/-- One round of the SHA-256 compression loop on (round constant, message word). -/
def round1 (st : Hash8) (kw : Nat × Nat) : Hash8 :=
  let t1 := w32 (st.h + bigSigma1 st.e +
    ((st.e &&& st.f) ^^^ ((2 ^ 32 - 1 - st.e) &&& st.g)) + kw.1 + kw.2)
  let t2 := w32 (bigSigma0 st.a + ((st.a &&& st.b) ^^^ (st.a &&& st.c) ^^^ (st.b &&& st.c)))
  ⟨w32 (t1 + t2), st.a, st.b, st.c, w32 (st.d + t1), st.e, st.f, st.g⟩

/-- Compress one 64-byte block into the running 8-word hash state. -/
def compressBlock (h : List Nat) (block : List Nat) : List Nat :=
  let ws := extendWords 48 (wordsOf block).reverse
  let init : Hash8 := ⟨h.getD 0 0, h.getD 1 0, h.getD 2 0, h.getD 3 0,
                       h.getD 4 0, h.getD 5 0, h.getD 6 0, h.getD 7 0⟩
  let fin := (K256.zip ws).foldl round1 init
  [w32 (h.getD 0 0 + fin.a), w32 (h.getD 1 0 + fin.b), w32 (h.getD 2 0 + fin.c),
   w32 (h.getD 3 0 + fin.d), w32 (h.getD 4 0 + fin.e), w32 (h.getD 5 0 + fin.f),
   w32 (h.getD 6 0 + fin.g), w32 (h.getD 7 0 + fin.h)]

/-- SHA-256 of a byte list, as the 32-byte big-endian digest. -/
def sha256 (msg : List Nat) : List Nat :=
  ((chunks64 (sha256pad msg)).foldl compressBlock H256).foldr
    (fun w acc => (w / 2 ^ 24) % 256 :: (w / 2 ^ 16) % 256 :: (w / 2 ^ 8) % 256 :: w % 256 :: acc)
    []

/-- Lowercase hex digit for a value below 16. -/
def hexDigit (n : Nat) : Char :=
  if n < 10 then Char.ofNat (48 + n) else Char.ofNat (87 + n)

/-- Lowercase hex encoding of a byte list (Go's `hex.EncodeToString`). -/
def bytesToHex (bs : List Nat) : String :=
  ⟨bs.foldr (fun b acc => hexDigit (b / 16) :: hexDigit (b % 16) :: acc) []⟩

/-- SHA-256 of a byte list as a 64-character lowercase hex string. -/
def sha256Hex (msg : List Nat) : String := bytesToHex (sha256 msg)

/-! ## Strings as byte sequences -/

/-- UTF-8 encoding of one character. -/
def encodeChar (c : Char) : List Nat :=
  let n := c.toNat
  if n < 0x80 then [n]
  else if n < 0x800 then [0xC0 ||| (n >>> 6), 0x80 ||| (n &&& 0x3F)]
  else if n < 0x10000 then
    [0xE0 ||| (n >>> 12), 0x80 ||| ((n >>> 6) &&& 0x3F), 0x80 ||| (n &&& 0x3F)]
  else
    [0xF0 ||| (n >>> 18), 0x80 ||| ((n >>> 12) &&& 0x3F),
     0x80 ||| ((n >>> 6) &&& 0x3F), 0x80 ||| (n &&& 0x3F)]

/-- The UTF-8 bytes of a string (a Go string's underlying byte slice). -/
def strBytes (s : String) : List Nat := s.data.flatMap encodeChar

/-- Byte-wise lexicographic comparison of character lists by codepoint, which
matches Go's built-in `<=` on the strings' UTF-8 bytes. -/
def charsLeB : List Char → List Char → Bool
  | [], _ => true
  | _ :: _, [] => false
  | a :: as, b :: bs =>
    if a.toNat < b.toNat then true
    else if b.toNat < a.toNat then false
    else charsLeB as bs

/-- Go's `<=` on strings: byte-wise lexicographic comparison. -/
def strLeB (a b : String) : Bool := charsLeB a.data b.data

/-- The order `sort.Strings` sorts by, as a decidable relation. -/
abbrev strLe (a b : String) : Prop := strLeB a b = true

/-- Lexicographic `<=` on raw byte sequences. -/
def bytesLeB : List Nat → List Nat → Bool
  | [], _ => true
  | _ :: _, [] => false
  | a :: as, b :: bs =>
    if a < b then true
    else if b < a then false
    else bytesLeB as bs

/-- `strings.Join(l, "\n")`. -/
def joinWithNL : List String → String
  | [] => ""
  | [s] => s
  | s :: rest => s ++ "\n" ++ joinWithNL rest

/-- Does the list start with `pat` (Go's `strings.HasPrefix`, on characters)? -/
def leadsWith : List Char → List Char → Bool
  | [], _ => true
  | _ :: _, [] => false
  | p :: ps, c :: cs => p == c && leadsWith ps cs

/-- Does `pat` occur as a contiguous substring (Go's `strings.Contains`)? -/
def hasSubstr (pat : List Char) : List Char → Bool
  | [] => pat.isEmpty
  | c :: cs => leadsWith pat (c :: cs) || hasSubstr pat cs

/-- Go's `strings.Contains(s, ".bundle")`. -/
def containsDotBundle (s : String) : Bool := hasSubstr ".bundle".data s.data

/-- Go's `filepath.Base` on a clean, nonempty path: the part after the last slash. -/
def baseName (s : String) : String :=
  ⟨s.data.foldl (fun acc c => if c.toNat = 47 then [] else acc ++ [c]) []⟩

/-! ## The checksum data model (checksum/main.go) -/

/-- One entry of SHA256SUM.txt: `ChecksumRecord` of checksum/main.go. -/
structure ChecksumRecord where
  Checksum : String
  FilePath : String
deriving DecidableEq, Repr

/-- `ComputeBundleChecksum` of checksum/main.go: sort a copy of the checksums
(`sort.Strings`, byte-wise lexicographic), join with a single newline and no
trailing separator (`strings.Join`), and hex-encode the SHA-256 of the result.
The Go function sorts a copy of its input slice, so the input is unmodified;
the embedding is a pure function of the input list. -/
def ComputeBundleChecksum (checksums : List String) : String :=
  sha256Hex (strBytes (joinWithNL (List.insertionSort strLe checksums)))

/-- `ComputeFileSHA256` of checksum/main.go on a file's content bytes: the file
is streamed through SHA-256 in chunks, which hashes exactly its bytes. -/
def ComputeFileSHA256 (content : List Nat) : String := sha256Hex content

/-- The comparison `Save` passes to `sort.Slice`: order records by checksum. -/
abbrev recordLe (a b : ChecksumRecord) : Prop := strLeB a.Checksum b.Checksum = true

/-- The record list after `Save`'s `sort.Slice(..., Checksum < Checksum)`:
records in nondecreasing checksum order. -/
def sortRecords (rs : List ChecksumRecord) : List ChecksumRecord :=
  List.insertionSort recordLe rs

/-- `ChecksumFile.Save` of checksum/main.go, as the byte content it writes to
`.bundle/SHA256SUM.txt`: sort by checksum, then sequentially `Fprintf` one
`"%s  ./%s\n"` line per record into the writer. -/
def saveContent (rs : List ChecksumRecord) : String :=
  (sortRecords rs).foldl (fun acc r => acc ++ r.Checksum ++ "  ./" ++ r.FilePath ++ "\n") ""

/-- Go's `unicode.IsSpace` (the White_Space property), by codepoint. -/
def isSpaceChar (c : Char) : Bool :=
  let n := c.toNat
  (9 ≤ n && n ≤ 13) || n = 32 || n = 0x85 || n = 0xA0 || n = 0x1680 ||
    (0x2000 ≤ n && n ≤ 0x200A) || n = 0x2028 || n = 0x2029 || n = 0x202F ||
    n = 0x205F || n = 0x3000

/-- Finish one scanned line: `bufio.ScanLines` drops one trailing carriage
return. The accumulator holds the line's characters in reverse. -/
def finishLine (acc : List Char) : List Char :=
  match acc with
  | c :: rest => if c.toNat = 13 then rest.reverse else acc.reverse
  | [] => []

/-- `bufio.Scanner` with `ScanLines`: split at newlines, dropping one trailing
carriage return per line, with no empty token after a final newline. -/
def linesAcc : List Char → List Char → List (List Char)
  | [], acc => if acc = [] then [] else [finishLine acc]
  | c :: cs, acc =>
    if c.toNat = 10 then finishLine acc :: linesAcc cs []
    else linesAcc cs (c :: acc)

/-- `strings.Fields`: the maximal runs of non-whitespace characters. The
accumulator holds the current field's characters in reverse. -/
def fieldsAcc : List Char → List Char → List (List Char)
  | [], acc => if acc = [] then [] else [acc.reverse]
  | c :: cs, acc =>
    if isSpaceChar c then
      if acc = [] then fieldsAcc cs [] else acc.reverse :: fieldsAcc cs []
    else fieldsAcc cs (c :: acc)

/-- `strings.TrimPrefix(s, "./")`: drop one leading `./` if present. -/
def trimDotSlash : List Char → List Char
  | '.' :: '/' :: rest => rest
  | l => l

/-- `ChecksumFile.Load` of checksum/main.go on the manifest file's content:
scan lines, split each into whitespace-separated fields, and for every line
with at least two fields record (first field, second field minus a leading
`./`); other lines are skipped. -/
def loadRecords (content : String) : List ChecksumRecord :=
  (linesAcc content.data []).filterMap fun line =>
    match fieldsAcc line [] with
    | c :: p :: _ => some ⟨⟨c⟩, ⟨trimDotSlash p⟩⟩
    | _ => none

/-- `ChecksumFile.Verify` of checksum/main.go. `disk` maps an absolute path to
the content of the file there, or `none` when no file exists (`os.Stat`
fails with not-exists). A missing file is recorded as corrupted and the loop
continues; an existing file is re-hashed and recorded when the hash differs;
the loop never stops early, and mismatches are data, not errors (the Go error
return is reserved for unreadable existing files, which this filesystem model
has none of). -/
def verifyRecords (bundlePath : String) (records : List ChecksumRecord)
    (disk : String → Option (List Nat)) : List String :=
  match records with
  | [] => []
  | r :: rest =>
    match disk (bundlePath ++ "/" ++ r.FilePath) with
    | none => r.FilePath :: verifyRecords bundlePath rest disk
    | some content =>
      if ComputeFileSHA256 content ≠ r.Checksum then
        r.FilePath :: verifyRecords bundlePath rest disk
      else
        verifyRecords bundlePath rest disk

/-- Is the record corrupted on `disk`: missing, or hash mismatch? This is the
claim's description of a corrupted file, to compare with `verifyRecords`. -/
def corruptedOn (bundlePath : String) (disk : String → Option (List Nat))
    (r : ChecksumRecord) : Bool :=
  match disk (bundlePath ++ "/" ++ r.FilePath) with
  | none => true
  | some content => ComputeFileSHA256 content ≠ r.Checksum

/-! ## The filesystem tree walked by `filepath.Walk` -/

/-- A filesystem entry. A directory is a `dcons` chain listing its entries in
the order Go's `filepath.Walk` enumerates them (`readDirNames` sorts the
names, so a chain stands for the sorted listing); `dnil` is the empty
directory and `file` a regular file with its content bytes. -/
inductive FSEntry where
  | file (content : List Nat)
  | dnil
  | dcons (name : String) (entry : FSEntry) (rest : FSEntry)
deriving DecidableEq, Repr

/-- Find the entry with the given name in a directory listing. -/
def lookupChild (n : String) : FSEntry → Option FSEntry
  | .dcons m e rest => if m = n then some e else lookupChild n rest
  | _ => none

/-- Replace the first entry with the given name, or append one at the end. -/
def setChild (n : String) (v : FSEntry) : FSEntry → FSEntry
  | .dcons m e rest => if m = n then .dcons m v rest else .dcons m e (setChild n v rest)
  | _ => .dcons n v .dnil

/-- The relative path of child `n` under relative path `rel` (`""` at the
walk's root), as `filepath.Rel` reports it against the root. -/
def childRel (rel n : String) : String := if rel = "" then n else rel ++ "/" ++ n

/-- The walk function of `ChecksumFile.Compute` applied to one directory
listing: entries in order; a subdirectory named exactly `.bundle` is pruned
(`filepath.SkipDir`); any other subdirectory is walked recursively; a regular
file is skipped if its full path (the bundle path joined with its relative
path) contains `.bundle` as a substring (`strings.Contains`), else its
streamed SHA-256 and relative path are appended. -/
def walkCompute (bundlePath rel : String) : FSEntry → List ChecksumRecord
  | .dcons n (.file c) rest =>
    (if containsDotBundle (bundlePath ++ "/" ++ childRel rel n) then []
     else [⟨ComputeFileSHA256 c, childRel rel n⟩]) ++ walkCompute bundlePath rel rest
  | .dcons _ .dnil rest => walkCompute bundlePath rel rest
  | .dcons n (.dcons m e sub) rest =>
    (if n = ".bundle" then []
     else walkCompute bundlePath (childRel rel n) (.dcons m e sub)) ++
      walkCompute bundlePath rel rest
  | _ => []

/-- `ChecksumFile.Compute` of checksum/main.go on the tree rooted at
`bundlePath`: `filepath.Walk` visits the root first (pruning everything when
the root directory itself is named `.bundle`), then walks the listing. A root
that is a regular file is visited once with relative path `.`. -/
def computeRecords (bundlePath : String) : FSEntry → List ChecksumRecord
  | .file c =>
    if containsDotBundle bundlePath then [] else [⟨ComputeFileSHA256 c, "."⟩]
  | root =>
    if baseName bundlePath = ".bundle" then []
    else walkCompute bundlePath "" root

/-- Reachability of a file in a tree: `HasFile t p c` holds when following the
named components of `p` from `t` reaches a regular file with content `c`.
Shadowed duplicate names are not reachable past the first, matching the walk
of a `dcons` chain where every cell is visited. -/
inductive HasFile : FSEntry → List String → List Nat → Prop where
  | fileSelf (c : List Nat) : HasFile (.file c) [] c
  | inChild {e : FSEntry} {p : List String} {c : List Nat} (n : String) (rest : FSEntry) :
      HasFile e p c → HasFile (.dcons n e rest) (n :: p) c
  | skip {rest : FSEntry} {p : List String} {c : List Nat} (n : String) (e : FSEntry) :
      HasFile rest p c → HasFile (.dcons n e rest) p c

/-- Join path components with `/` (the relative path `filepath.Rel` yields). -/
def joinPath : List String → String
  | [] => ""
  | [n] => n
  | n :: p => n ++ "/" ++ joinPath p

/-! ## The write lock (lock/main.go) -/

/-- The handle `AcquireLock` returns; it records the lock file's path. -/
structure Lock where
  lockPath : String
deriving DecidableEq, Repr

/-- `AcquireLock` of lock/main.go. The state is the content of
`<bundlePath>/.bundle/.lock` when that file exists, else `none`. The lock file
is created with `O_CREATE|O_EXCL`: if it exists the call fails at once with
the lock-held error and changes nothing (no retry, wait or timeout, and the
holder's own pid gets no special treatment); otherwise the file is created
atomically, the caller's pid is written into it, and a handle is returned.
`os.MkdirAll` of `.bundle` is total in this model (no I/O failure). -/
def AcquireLock (bundlePath : String) (pid : Nat) (lockFile : Option String) :
    Except String Lock × Option String :=
  match lockFile with
  | some content => (.error "bundle is locked by another process", some content)
  | none =>
    (.ok ⟨bundlePath ++ "/.bundle/.lock"⟩, some ("PID: " ++ toString pid ++ "\n"))

/-- `Lock.Release` of lock/main.go: close the handle and remove the lock file. -/
def releaseLock (_lockFile : Option String) : Option String :=
  none

/-! ## Pool import (pool package) -/

/-- The world `Pool.Import` acts on. `pool` lists the immediate
subdirectories of `pool.Root`, keyed by directory name; `srcMetaIdent` is the
`BundleChecksum` in the source bundle's `.bundle/META.json` (the metadata
module is an external collaborator, so its load result is state), `none` when
it cannot be loaded; `copyFails` says whether the recursive copy would hit an
I/O error partway, and `copied` is what `copyDir` leaves at the destination
in that case (a partially written tree). -/
structure PoolState where
  pool : List (String × FSEntry)
  rootExists : Bool
  srcTree : FSEntry
  srcMetaIdent : Option String
  srcExists : Bool
  copyFails : Bool
  copied : FSEntry
deriving Repr

/-- `Pool.Import` of the pool package: load the source metadata to get the
identity; fail if `pool.Root/<identity>` already exists (`os.Stat` succeeds),
before anything is written; otherwise `os.MkdirAll` the pool root, recursively
copy the source to the destination (an I/O failure surfaces and leaves the
partial copy, with the source kept), and only on `move` with a fully
successful copy remove the source recursively (`os.RemoveAll`). -/
def poolImport (st : PoolState) (move : Bool) : Except String Unit × PoolState :=
  match (if st.srcExists then st.srcMetaIdent else none) with
  | none => (.error "failed to load bundle metadata", st)
  | some ident =>
    if (st.pool.lookup ident).isSome then
      (.error ("bundle already exists in pool: " ++ ident), st)
    else if st.copyFails then
      (.error "failed to copy bundle",
        { st with rootExists := true, pool := (ident, st.copied) :: st.pool })
    else if move then
      (.ok (),
        { st with
          rootExists := true
          pool := (ident, st.srcTree) :: st.pool
          srcExists := false })
    else
      (.ok (), { st with rootExists := true, pool := (ident, st.srcTree) :: st.pool })

/-! ## Bundle creation (bundle/main.go) -/

/-- Which steps of `Create` fail, for the lock-discipline claim: each Boolean
makes the corresponding fallible step of bundle.Create return an error. -/
structure CreateFlags where
  mkdirFails : Bool
  computeFails : Bool
  metaSaveFails : Bool
  sumSaveFails : Bool
  stateSaveFails : Bool
  tagsSaveFails : Bool
deriving DecidableEq, Repr

/-- `bundle.Create`'s control flow around the lock: acquire the write lock
(returning its error unchanged on failure), then run the fallible steps in
source order — `os.MkdirAll` of `.bundle`, `files.Compute`,
`meta.Save`, `files.Save`, `bundleState.Save`, `bundleTags.Save` — where
every return path after acquisition goes through the deferred
`bundleLock.Release()`. -/
def bundleCreate (bundlePath : String) (pid : Nat) (f : CreateFlags)
    (lockFile : Option String) : Except String Unit × Option String :=
  match AcquireLock bundlePath pid lockFile with
  | (.error e, fs) => (.error e, fs)
  | (.ok _, fs) =>
    if f.mkdirFails then (.error "mkdir failed", releaseLock fs)
    else if f.computeFails then (.error "failed to compute checksums", releaseLock fs)
    else if f.metaSaveFails then (.error "failed to save metadata", releaseLock fs)
    else if f.sumSaveFails then (.error "failed to save checksums", releaseLock fs)
    else if f.stateSaveFails then (.error "failed to save state", releaseLock fs)
    else if f.tagsSaveFails then (.error "failed to save tags", releaseLock fs)
    else (.ok (), releaseLock fs)

/-- `os.MkdirAll(path/.bundle)`: ensure the root listing has a `.bundle`
child, creating an empty one when absent. A file root is left unchanged (the
real call would fail there; `createOnFS` keeps such a root untouched). -/
def ensureBundleDir : FSEntry → FSEntry
  | .file c => .file c
  | root =>
    if (lookupChild ".bundle" root).isSome then root
    else setChild ".bundle" .dnil root

/-- Write the four metadata files of `Create` into the root's `.bundle`
directory, leaving everything else (such as the `.lock` file) in place. -/
def writeBundleMeta (root : FSEntry) (manifest metaJson stateJson tagsTxt : String) : FSEntry :=
  match root with
  | .file c => .file c
  | l =>
    let bd := (lookupChild ".bundle" l).getD .dnil
    let bd := setChild "META.json" (.file (strBytes metaJson)) bd
    let bd := setChild "SHA256SUM.txt" (.file (strBytes manifest)) bd
    let bd := setChild "STATE.json" (.file (strBytes stateJson)) bd
    let bd := setChild "TAGS.txt" (.file (strBytes tagsTxt)) bd
    setChild ".bundle" bd l

/-- `bundle.Create` as a transformer of the bundle directory's tree: make the
`.bundle` directory, compute the manifest records from the tree (which then
already contains `.bundle`), derive the persisted manifest bytes and the
bundle identity, and write the metadata files into `.bundle`. `metaJson`,
`stateJson` and `tagsTxt` stand for the serialized metadata, state and tags —
they vary between runs (timestamps) and are arbitrary here. Returns
(manifest content, bundle identity, resulting tree). A file root is returned
unchanged (the real `Create` fails at `os.MkdirAll` there). -/
def createOnFS (bundlePath : String) (root : FSEntry)
    (metaJson stateJson tagsTxt : String) : String × String × FSEntry :=
  match root with
  | .file c =>
    (saveContent (computeRecords bundlePath (.file c)),
     ComputeBundleChecksum ((computeRecords bundlePath (.file c)).map (·.Checksum)),
     .file c)
  | l =>
    let l1 := ensureBundleDir l
    let recs := computeRecords bundlePath l1
    let manifest := saveContent recs
    let ident := ComputeBundleChecksum (recs.map (·.Checksum))
    (manifest, ident, writeBundleMeta l1 manifest metaJson stateJson tagsTxt)

/-- Order on strings by raw byte sequences (spec wording). -/
abbrev bytesStrLe (a b : String) : Prop := bytesLeB (strBytes a) (strBytes b) = true

/-- Join byte sequences with a single 0x0A separator, no trailing separator. -/
def joinBytesNL : List (List Nat) → List Nat
  | [] => []
  | [b] => b
  | b :: bs => b ++ 10 :: joinBytesNL bs

/-- Every character of the string is ASCII. -/
def allAscii (s : String) : Bool := s.data.all (fun c => c.toNat < 128)

/-- The spec's reference definition of aggregate. -/
def aggregateSpec (hashes : List String) : String :=
  bytesToHex (sha256 (joinBytesNL ((List.insertionSort bytesStrLe hashes).map strBytes)))

/-- Is the character a lowercase hex digit? -/
def isHexChar (c : Char) : Bool :=
  (48 ≤ c.toNat && c.toNat ≤ 57) || (97 ≤ c.toNat && c.toNat ≤ 102)

/-- Is the string exactly 64 lowercase hex characters? -/
def isHex64 (s : String) : Bool := s.data.length = 64 && s.data.all isHexChar

/-- The string has no whitespace character (in the sense of `unicode.IsSpace`). -/
def noWhitespace (s : String) : Bool := s.data.all (fun c => !isSpaceChar c)

/-- One manifest line as `Save` formats it, without the terminating newline. -/
def saveLine (r : ChecksumRecord) : String := r.Checksum ++ "  ./" ++ r.FilePath

/-- The character sequence of one manifest line, without the newline. -/
def lineChars (r : ChecksumRecord) : List Char :=
  r.Checksum.data ++ ' ' :: ' ' :: '.' :: '/' :: r.FilePath.data

/-- Does the string end in a newline byte? -/
def endsWithNL (s : String) : Bool :=
  match s.data.getLast? with
  | some c => c.toNat = 10
  | none => false

/-- The string has no newline byte. -/
def noNewline (s : String) : Bool := s.data.all (fun c => c.toNat ≠ 10)

/-- Split a file's byte content at each newline byte; the newline terminating
the last line produces no empty trailing segment. The accumulator holds the
current line's characters in reverse. -/
def splitLinesRaw : List Char → List Char → List (List Char)
  | [], acc => if acc = [] then [] else [acc.reverse]
  | c :: cs, acc =>
    if c.toNat = 10 then acc.reverse :: splitLinesRaw cs []
    else splitLinesRaw cs (c :: acc)

/-- The newline-delimited lines of a file's content, as raw bytes. -/
def rawLines (s : String) : List String := (splitLinesRaw s.data []).map String.mk

/-- Wellformedness of a directory listing: a proper `dcons`-chain ending in
`dnil`, every name nonempty, every subdirectory again wellformed. Any real
directory satisfies this. -/
def isFileB : FSEntry → Bool
  | .file _ => true
  | _ => false

def wellFormedDir : FSEntry → Bool
  | .file _ => false
  | .dnil => true
  | .dcons n e rest =>
    decide (n ≠ "") && (isFileB e || wellFormedDir e) && wellFormedDir rest

/-! ## Theorems -/

theorem charsLeB_total (a b : List Char) : charsLeB a b = true ∨ charsLeB b a = true := by
  induction a generalizing b with
  | nil => left; rfl
  | cons x xs ih =>
    cases b with
    | nil => right; rfl
    | cons y ys =>
      by_cases hxy : x.toNat < y.toNat
      · left; simp [charsLeB, hxy]
      · by_cases hyx : y.toNat < x.toNat
        · right; simp [charsLeB, hyx]
        · rcases ih ys with h | h
          · left; simp [charsLeB, hxy, hyx, h]
          · right; simp [charsLeB, hxy, hyx, h]

theorem charsLeB_trans {a b c : List Char} (hab : charsLeB a b = true)
    (hbc : charsLeB b c = true) : charsLeB a c = true := by
  induction a generalizing b c with
  | nil => rfl
  | cons x xs ih =>
    cases b with
    | nil => simp [charsLeB] at hab
    | cons y ys =>
      cases c with
      | nil => simp [charsLeB] at hbc
      | cons z zs =>
        simp only [charsLeB] at hab hbc ⊢
        split_ifs at hab hbc ⊢ <;>
          first
          | rfl
          | omega
          | (simp at hab)
          | (simp at hbc)
          | (exact ih hab hbc)

theorem char_toNat_inj {a b : Char} (h : a.toNat = b.toNat) : a = b := by
  rw [← Char.ofNat_toNat a, ← Char.ofNat_toNat b, h]

theorem charsLeB_antisymm {a b : List Char} (hab : charsLeB a b = true)
    (hba : charsLeB b a = true) : a = b := by
  induction a generalizing b with
  | nil =>
    cases b with
    | nil => rfl
    | cons y ys => simp [charsLeB] at hba
  | cons x xs ih =>
    cases b with
    | nil => simp [charsLeB] at hab
    | cons y ys =>
      by_cases h1 : x.toNat < y.toNat
      · have h2 : ¬ y.toNat < x.toNat := by omega
        simp [charsLeB, h1, h2] at hba
      · by_cases h2 : y.toNat < x.toNat
        · simp [charsLeB, h1, h2] at hab
        · have hxy : x = y := char_toNat_inj (by omega)
          simp only [charsLeB, if_neg h1, if_neg h2] at hab hba
          rw [hxy, ih hab hba]

instance : IsTotal String strLe := ⟨fun a b => charsLeB_total a.data b.data⟩

instance : IsTrans String strLe := ⟨fun _ _ _ hab hbc => charsLeB_trans hab hbc⟩

theorem str_data_inj {a b : String} (h : a.data = b.data) : a = b := by
  cases a
  cases b
  exact congrArg String.mk h

instance : IsAntisymm String strLe :=
  ⟨fun _ _ hab hba => str_data_inj (charsLeB_antisymm hab hba)⟩

instance : IsTotal ChecksumRecord recordLe :=
  ⟨fun a b => charsLeB_total a.Checksum.data b.Checksum.data⟩

instance : IsTrans ChecksumRecord recordLe :=
  ⟨fun _ _ _ hab hbc => charsLeB_trans hab hbc⟩

theorem insertionSort_eq_of_perm {l l' : List String} (h : l.Perm l') :
    List.insertionSort strLe l = List.insertionSort strLe l' :=
  List.eq_of_perm_of_sorted
    ((List.perm_insertionSort strLe l).trans (h.trans (List.perm_insertionSort strLe l').symm))
    (List.sorted_insertionSort strLe l) (List.sorted_insertionSort strLe l')

/-- Claim C1: for every list of file-hash strings and every permutation of it
(duplicates retained), `ComputeBundleChecksum` returns the identical
BundleIdentity string. The Go function sorts a copy of the slice
(`sorted := make; copy; sort.Strings(sorted)`), so its input is not modified;
the embedding is a pure function, where non-modification is inherent. -/
theorem computeBundleChecksum_permutation_invariant (l l' : List String) (h : l.Perm l') :
    ComputeBundleChecksum l = ComputeBundleChecksum l' := by
  unfold ComputeBundleChecksum
  rw [insertionSort_eq_of_perm h]

set_option maxRecDepth 10000 in
theorem computeBundleChecksum_permutation_invariant_witness :
    (["b", "a"] : List String).Perm ["a", "b"] ∧
      ComputeBundleChecksum ["b", "a"] = ComputeBundleChecksum ["a", "b"] :=
  ⟨List.Perm.swap "a" "b" [], computeBundleChecksum_permutation_invariant _ _ (List.Perm.swap "a" "b" [])⟩

theorem flatMap_encodeChar_ascii (l : List Char) (h : l.all (fun c => c.toNat < 128) = true) :
    l.flatMap encodeChar = l.map Char.toNat := by
  induction l with
  | nil => rfl
  | cons c cs ih =>
    simp only [List.all_cons, Bool.and_eq_true, decide_eq_true_eq] at h
    simp only [List.flatMap_cons, List.map_cons]
    rw [ih h.2]
    have henc : encodeChar c = [c.toNat] := by
      unfold encodeChar
      rw [if_pos h.1]
    rw [henc]
    rfl

theorem strBytes_ascii {s : String} (h : allAscii s = true) :
    strBytes s = s.data.map Char.toNat :=
  flatMap_encodeChar_ascii s.data h

theorem bytesLeB_map_toNat (a b : List Char) :
    bytesLeB (a.map Char.toNat) (b.map Char.toNat) = charsLeB a b := by
  induction a generalizing b with
  | nil => cases b <;> rfl
  | cons x xs ih =>
    cases b with
    | nil => rfl
    | cons y ys =>
      simp only [List.map_cons, bytesLeB, charsLeB]
      split_ifs <;> first | rfl | (exact ih ys)

theorem strLe_iff_bytesStrLe {a b : String} (ha : allAscii a = true) (hb : allAscii b = true) :
    strLe a b ↔ bytesStrLe a b := by
  unfold strLe bytesStrLe strLeB
  rw [strBytes_ascii ha, strBytes_ascii hb, bytesLeB_map_toNat]

theorem strBytes_append (a b : String) : strBytes (a ++ b) = strBytes a ++ strBytes b := by
  unfold strBytes
  rw [String.data_append, List.flatMap_append]

theorem strBytes_joinWithNL (l : List String) :
    strBytes (joinWithNL l) = joinBytesNL (l.map strBytes) := by
  induction l with
  | nil => rfl
  | cons s rest ih =>
    cases rest with
    | nil => rfl
    | cons t ts =>
      show strBytes (s ++ "\n" ++ joinWithNL (t :: ts)) = _
      rw [strBytes_append, strBytes_append, ih]
      have h10 : strBytes "\n" = [10] := rfl
      rw [h10]
      simp [joinBytesNL, List.append_assoc]

set_option maxRecDepth 10000 in
/-- Claim C7: `ComputeBundleChecksum` equals the spec's reference definition
`aggregateSpec` — sort by locale-independent byte comparison, join with a
single 0x0A separator and no trailing separator, SHA-256, lowercase hex — for
hash strings (ASCII, as 64-hex-char hashes are; for ASCII strings Go's
byte order and the codepoint order coincide character by character), and on
empty input it returns the SHA-256 of the empty byte string. -/
theorem computeBundleChecksum_matches_reference :
    (∀ hs : List String, (∀ s ∈ hs, allAscii s = true) →
        ComputeBundleChecksum hs = aggregateSpec hs) ∧
      ComputeBundleChecksum [] =
        "e3b0c44298fc1c149afbf4c8996fb92427ae41e4649b934ca495991b7852b855" := by
  constructor
  · intro hs h
    unfold ComputeBundleChecksum aggregateSpec sha256Hex
    have hsort : List.insertionSort strLe hs = List.insertionSort bytesStrLe hs := by
      have hmap := @List.map_insertionSort String String strLe bytesStrLe _ _ id hs
        (fun a ha b hb => by
          simp only [id]
          exact strLe_iff_bytesStrLe (h a ha) (h b hb))
      simpa using hmap
    rw [strBytes_joinWithNL, hsort]
  · decide

set_option maxRecDepth 10000 in
theorem computeBundleChecksum_matches_reference_witness :
    (∀ s ∈ (["b", "a"] : List String), allAscii s = true) ∧
      ComputeBundleChecksum ["b", "a"] = aggregateSpec ["b", "a"] :=
  ⟨by decide, computeBundleChecksum_matches_reference.1 ["b", "a"] (by decide)⟩

theorem verifyRecords_eq_filter (bp : String) (records : List ChecksumRecord)
    (disk : String → Option (List Nat)) :
    verifyRecords bp records disk =
      (records.filter (corruptedOn bp disk)).map (fun r => r.FilePath) := by
  induction records with
  | nil => rfl
  | cons r rest ih =>
    rw [verifyRecords]
    cases hd : disk (bp ++ "/" ++ r.FilePath) with
    | none => simp [List.filter_cons, corruptedOn, hd, ih]
    | some content =>
      by_cases hc : ComputeFileSHA256 content ≠ r.Checksum
      · simp [List.filter_cons, corruptedOn, hd, hc, ih]
      · simp [List.filter_cons, corruptedOn, hd, hc, ih]

/-- Claim C3: `ChecksumFile.Verify` returns exactly the relative paths of the
records that are missing on disk or whose recomputed hash differs — the
filter characterization gives, for a state with exactly k corrupted or
missing files, exactly those k paths and no others, every record is checked
(a later corrupted record is still reported when an earlier one is), and the
empty set is returned exactly when no record is corrupted (k = 0). The result
is return data; in this filesystem model (files present or absent, reads
total) no error is raised. -/
theorem verify_reports_exactly_corrupted (bp : String) (records : List ChecksumRecord)
    (disk : String → Option (List Nat)) :
    verifyRecords bp records disk =
        (records.filter (corruptedOn bp disk)).map (fun r => r.FilePath)
      ∧ (verifyRecords bp records disk = [] ↔
          ∀ r ∈ records, corruptedOn bp disk r = false) := by
  refine ⟨verifyRecords_eq_filter bp records disk, ?_⟩
  rw [verifyRecords_eq_filter]
  simp [List.filter_eq_nil_iff]

/-- Claim C4: the WriteLock state machine. Conjuncts in order: acquiring on
an unlocked path succeeds and locks it (writing the holder's pid); acquiring
on a locked path fails immediately with the lock-held error and leaves the
state unchanged — the pid is arbitrary, so the current holder (same pid) is
refused too, with no retry, wait or timeout; Release unlocks; after a
release a subsequent acquire succeeds; and of two acquires sequenced by the
filesystem's atomic exclusive-create, the first succeeds and the second
receives the lock-held error with no state change (exactly one winner). -/
theorem writeLock_state_machine (bp : String) (p1 p2 : Nat) (c : String) :
    AcquireLock bp p1 none =
        (.ok ⟨bp ++ "/.bundle/.lock"⟩, some ("PID: " ++ toString p1 ++ "\n"))
      ∧ AcquireLock bp p2 (some c) = (.error "bundle is locked by another process", some c)
      ∧ releaseLock (some c) = none
      ∧ AcquireLock bp p2 (releaseLock (AcquireLock bp p1 none).2) =
          (.ok ⟨bp ++ "/.bundle/.lock"⟩, some ("PID: " ++ toString p2 ++ "\n"))
      ∧ AcquireLock bp p2 (AcquireLock bp p1 none).2 =
          (.error "bundle is locked by another process", (AcquireLock bp p1 none).2) :=
  ⟨rfl, rfl, rfl, rfl, rfl⟩

/-- Claim C5: `Pool.Import`. When the destination `pool.root/identity`
already exists, import fails with the duplicate error and returns the state
exactly unchanged (no write happened, the pool entry and source are
untouched). Otherwise with a fully successful copy it marks the pool root
created, stores the source tree at the identity, and removes the source
exactly when `move` is true; when the copy fails partway the error surfaces
and the source is kept (removed only when move and the copy fully
succeeded). -/
theorem pool_import_dedup (st : PoolState) (move : Bool) (ident : String)
    (hsrc : st.srcExists = true) (hmeta : st.srcMetaIdent = some ident) :
    ((st.pool.lookup ident).isSome = true →
        poolImport st move = (.error ("bundle already exists in pool: " ++ ident), st))
      ∧ ((st.pool.lookup ident).isSome = false → st.copyFails = false →
          (poolImport st move).1 = .ok ()
            ∧ (poolImport st move).2.rootExists = true
            ∧ (poolImport st move).2.pool.lookup ident = some st.srcTree
            ∧ (poolImport st move).2.srcExists = !move)
      ∧ ((st.pool.lookup ident).isSome = false → st.copyFails = true →
          (poolImport st move).1 = .error "failed to copy bundle"
            ∧ (poolImport st move).2.srcExists = true) := by
  refine ⟨fun hdup => ?_, fun hdup hcopy => ?_, fun hdup hcopy => ?_⟩
  · simp [poolImport, hsrc, hmeta, hdup]
  · cases move <;> simp [poolImport, hsrc, hmeta, hdup, hcopy]
  · cases move <;> simp [poolImport, hsrc, hmeta, hdup, hcopy]

theorem pool_import_dedup_witness :
    (PoolState.mk [] false .dnil (some "abc") true false .dnil).srcExists = true
      ∧ (PoolState.mk [] false .dnil (some "abc") true false .dnil).srcMetaIdent = some "abc"
      ∧ ((((PoolState.mk [] false .dnil (some "abc") true false .dnil).pool.lookup
            "abc").isSome = true →
          poolImport (PoolState.mk [] false .dnil (some "abc") true false .dnil) true =
            (.error ("bundle already exists in pool: " ++ "abc"),
              PoolState.mk [] false .dnil (some "abc") true false .dnil))
        ∧ ((((PoolState.mk [] false .dnil (some "abc") true false .dnil).pool.lookup
              "abc").isSome = false) →
            (PoolState.mk [] false .dnil (some "abc") true false .dnil).copyFails = false →
            (poolImport (PoolState.mk [] false .dnil (some "abc") true false .dnil) true).1 =
                .ok ()
              ∧ (poolImport (PoolState.mk [] false .dnil (some "abc") true false
                  .dnil) true).2.rootExists = true
              ∧ (poolImport (PoolState.mk [] false .dnil (some "abc") true false
                  .dnil) true).2.pool.lookup "abc" =
                  some (PoolState.mk [] false .dnil (some "abc") true false .dnil).srcTree
              ∧ (poolImport (PoolState.mk [] false .dnil (some "abc") true false
                  .dnil) true).2.srcExists = !true)
        ∧ ((((PoolState.mk [] false .dnil (some "abc") true false .dnil).pool.lookup
              "abc").isSome = false) →
            (PoolState.mk [] false .dnil (some "abc") true false .dnil).copyFails = true →
            (poolImport (PoolState.mk [] false .dnil (some "abc") true false .dnil) true).1 =
                .error "failed to copy bundle"
              ∧ (poolImport (PoolState.mk [] false .dnil (some "abc") true false
                  .dnil) true).2.srcExists = true)) :=
  ⟨rfl, rfl, pool_import_dedup (PoolState.mk [] false .dnil (some "abc") true false .dnil) true
    "abc" rfl rfl⟩

/-- Claim C8: `Create` always releases the WriteLock it acquired before
returning: for every combination of failing steps (mkdir, checksum
computation, each of the four persistence steps) the lock file is gone after
`bundleCreate` returns, and a subsequent `AcquireLock` succeeds. When the
lock was already held, `Create` returns the lock-held error and does not
touch the other holder's lock. -/
theorem create_always_releases_lock (bp : String) (pid pid2 : Nat) (f : CreateFlags) (c : String) :
    (bundleCreate bp pid f none).2 = none
      ∧ AcquireLock bp pid2 (bundleCreate bp pid f none).2 =
          (.ok ⟨bp ++ "/.bundle/.lock"⟩, some ("PID: " ++ toString pid2 ++ "\n"))
      ∧ bundleCreate bp pid f (some c) =
          (.error "bundle is locked by another process", some c) := by
  rcases f with ⟨m, co, me, su, st, ta⟩
  cases m <;> cases co <;> cases me <;> cases su <;> cases st <;> cases ta <;>
    exact ⟨rfl, rfl, rfl⟩

theorem saveLine_data (r : ChecksumRecord) : (saveLine r).data = lineChars r := by
  unfold saveLine lineChars
  rw [String.data_append, String.data_append, List.append_assoc]
  rfl

theorem saveContent_data (rs : List ChecksumRecord) :
    (saveContent rs).data = ((sortRecords rs).map (fun r => lineChars r ++ ['\n'])).flatten := by
  unfold saveContent
  have gen : ∀ (l : List ChecksumRecord) (init : String),
      (l.foldl (fun acc r => acc ++ r.Checksum ++ "  ./" ++ r.FilePath ++ "\n") init).data =
        init.data ++ (l.map (fun r => lineChars r ++ ['\n'])).flatten := by
    intro l
    induction l with
    | nil => intro init; simp
    | cons r rest ih =>
      intro init
      simp only [List.foldl_cons, List.map_cons, List.flatten_cons]
      rw [ih]
      simp [String.data_append, lineChars]
  rw [gen]
  rfl

theorem finishLine_reverse (l : List Char) (hCR : ∀ c ∈ l, c.toNat ≠ 13) :
    finishLine l.reverse = l := by
  cases hrev : l.reverse with
  | nil => simp_all [finishLine, List.reverse_eq_nil_iff]
  | cons c rest =>
    have hc : c ∈ l := by
      rw [← List.mem_reverse, hrev]
      exact List.mem_cons_self c rest
    show (if c.toNat = 13 then rest.reverse else (c :: rest).reverse) = l
    rw [if_neg (hCR c hc), ← hrev, List.reverse_reverse]

theorem linesAcc_append_nl (l rest : List Char) (acc : List Char)
    (hNL : ∀ c ∈ l, c.toNat ≠ 10) :
    linesAcc (l ++ '\n' :: rest) acc = finishLine (l.reverse ++ acc) :: linesAcc rest [] := by
  induction l generalizing acc with
  | nil => rfl
  | cons c cs ih =>
    have hc := hNL c (List.mem_cons_self c cs)
    have hcs : ∀ d ∈ cs, d.toNat ≠ 10 := fun d hd => hNL d (List.mem_cons_of_mem c hd)
    show linesAcc (c :: (cs ++ '\n' :: rest)) acc = _
    simp only [linesAcc]
    rw [if_neg hc, ih _ hcs]
    simp

theorem linesAcc_flatten (ls : List (List Char))
    (hNL : ∀ l ∈ ls, ∀ c ∈ l, c.toNat ≠ 10) (hCR : ∀ l ∈ ls, ∀ c ∈ l, c.toNat ≠ 13) :
    linesAcc ((ls.map (fun l => l ++ ['\n'])).flatten) [] = ls := by
  induction ls with
  | nil => rfl
  | cons l ls ih =>
    simp only [List.map_cons, List.flatten_cons]
    have : (l ++ ['\n']) ++ (ls.map (fun l => l ++ ['\n'])).flatten =
        l ++ '\n' :: (ls.map (fun l => l ++ ['\n'])).flatten := by
      simp
    rw [this, linesAcc_append_nl _ _ _ (hNL l (List.mem_cons_self l ls))]
    rw [List.append_nil, finishLine_reverse l (hCR l (List.mem_cons_self l ls))]
    rw [ih (fun m hm => hNL m (List.mem_cons_of_mem l hm))
      (fun m hm => hCR m (List.mem_cons_of_mem l hm))]

theorem fieldsAcc_nonspace (w : List Char) (rest acc : List Char)
    (hw : ∀ c ∈ w, isSpaceChar c = false) :
    fieldsAcc (w ++ rest) acc = fieldsAcc rest (w.reverse ++ acc) := by
  induction w generalizing acc with
  | nil => rfl
  | cons c cs ih =>
    have hc := hw c (List.mem_cons_self c cs)
    have hcs : ∀ d ∈ cs, isSpaceChar d = false := fun d hd => hw d (List.mem_cons_of_mem c hd)
    show fieldsAcc (c :: (cs ++ rest)) acc = _
    simp only [fieldsAcc]
    rw [hc]
    simp only [Bool.false_eq_true, if_false]
    rw [ih _ hcs]
    simp

theorem fieldsAcc_line (chk path : List Char) (hne : chk ≠ [])
    (hchk : ∀ c ∈ chk, isSpaceChar c = false) (hpath : ∀ c ∈ path, isSpaceChar c = false) :
    fieldsAcc (chk ++ ' ' :: ' ' :: '.' :: '/' :: path) [] = [chk, '.' :: '/' :: path] := by
  rw [fieldsAcc_nonspace chk _ [] hchk, List.append_nil]
  have hrev : chk.reverse ≠ [] := by simpa using hne
  show (if chk.reverse = [] then fieldsAcc (' ' :: '.' :: '/' :: path) []
        else chk.reverse.reverse :: fieldsAcc (' ' :: '.' :: '/' :: path) []) = _
  rw [if_neg hrev, List.reverse_reverse]
  have hdot : ∀ c ∈ '.' :: '/' :: path, isSpaceChar c = false := by
    intro c hc
    rcases List.mem_cons.mp hc with rfl | hc
    · rfl
    · rcases List.mem_cons.mp hc with rfl | hc
      · rfl
      · exact hpath c hc
  have hmid : fieldsAcc (' ' :: '.' :: '/' :: path) [] =
      fieldsAcc [] (('.' :: '/' :: path).reverse) := by
    have h2 := fieldsAcc_nonspace ('.' :: '/' :: path) [] [] hdot
    simp only [List.append_nil] at h2
    exact h2
  rw [hmid]
  have hne2 : ('.' :: '/' :: path).reverse ≠ [] := by simp
  have hfin : fieldsAcc [] (('.' :: '/' :: path).reverse) = ['.' :: '/' :: path] := by
    show (if ('.' :: '/' :: path).reverse = [] then []
          else [('.' :: '/' :: path).reverse.reverse]) = _
    rw [if_neg hne2, List.reverse_reverse]
  rw [hfin]

theorem hexChar_not_space {c : Char} (h : isHexChar c = true) : isSpaceChar c = false := by
  simp only [isHexChar, Bool.or_eq_true, Bool.and_eq_true, decide_eq_true_eq] at h
  simp only [isSpaceChar, Bool.or_eq_false_iff, Bool.and_eq_false_iff,
    decide_eq_false_iff_not]
  omega

theorem nonspace_ne_nl {c : Char} (h : isSpaceChar c = false) : c.toNat ≠ 10 := by
  simp only [isSpaceChar, Bool.or_eq_false_iff, Bool.and_eq_false_iff,
    decide_eq_false_iff_not] at h
  omega

theorem nonspace_ne_cr {c : Char} (h : isSpaceChar c = false) : c.toNat ≠ 13 := by
  simp only [isSpaceChar, Bool.or_eq_false_iff, Bool.and_eq_false_iff,
    decide_eq_false_iff_not] at h
  omega

theorem lineChars_no_nl (r : ChecksumRecord) (hc : isHex64 r.Checksum = true)
    (hp : noWhitespace r.FilePath = true) : ∀ c ∈ lineChars r, c.toNat ≠ 10 := by
  simp only [isHex64, Bool.and_eq_true, decide_eq_true_eq, List.all_eq_true] at hc
  simp only [noWhitespace, List.all_eq_true, Bool.not_eq_eq_eq_not, Bool.not_true] at hp
  intro c hmem
  unfold lineChars at hmem
  rcases List.mem_append.mp hmem with hin | hin
  · exact nonspace_ne_nl (hexChar_not_space (hc.2 c hin))
  · rcases List.mem_cons.mp hin with rfl | hin
    · decide
    · rcases List.mem_cons.mp hin with rfl | hin
      · decide
      · rcases List.mem_cons.mp hin with rfl | hin
        · decide
        · rcases List.mem_cons.mp hin with rfl | hin
          · decide
          · exact nonspace_ne_nl (hp c hin)

theorem lineChars_no_cr (r : ChecksumRecord) (hc : isHex64 r.Checksum = true)
    (hp : noWhitespace r.FilePath = true) : ∀ c ∈ lineChars r, c.toNat ≠ 13 := by
  simp only [isHex64, Bool.and_eq_true, decide_eq_true_eq, List.all_eq_true] at hc
  simp only [noWhitespace, List.all_eq_true, Bool.not_eq_eq_eq_not, Bool.not_true] at hp
  intro c hmem
  unfold lineChars at hmem
  rcases List.mem_append.mp hmem with hin | hin
  · exact nonspace_ne_cr (hexChar_not_space (hc.2 c hin))
  · rcases List.mem_cons.mp hin with rfl | hin
    · decide
    · rcases List.mem_cons.mp hin with rfl | hin
      · decide
      · rcases List.mem_cons.mp hin with rfl | hin
        · decide
        · rcases List.mem_cons.mp hin with rfl | hin
          · decide
          · exact nonspace_ne_cr (hp c hin)

theorem parse_lineChars (r : ChecksumRecord) (hc : isHex64 r.Checksum = true)
    (hp : noWhitespace r.FilePath = true) :
    (match fieldsAcc (lineChars r) [] with
     | c :: p :: _ => some (ChecksumRecord.mk ⟨c⟩ ⟨trimDotSlash p⟩)
     | _ => none) = some r := by
  simp only [isHex64, Bool.and_eq_true, decide_eq_true_eq, List.all_eq_true] at hc
  simp only [noWhitespace, List.all_eq_true, Bool.not_eq_eq_eq_not, Bool.not_true] at hp
  have hne : r.Checksum.data ≠ [] := by
    intro h0
    rw [h0] at hc
    simp at hc
  have hchk : ∀ c ∈ r.Checksum.data, isSpaceChar c = false :=
    fun c hmem => hexChar_not_space (hc.2 c hmem)
  have hpath : ∀ c ∈ r.FilePath.data, isSpaceChar c = false := hp
  have hfields := fieldsAcc_line r.Checksum.data r.FilePath.data hne hchk hpath
  unfold lineChars
  rw [hfields]
  rfl

theorem filterMap_id_of_mem {α : Type} (f : α → Option α) :
    ∀ l : List α, (∀ r ∈ l, f r = some r) → l.filterMap f = l := by
  intro l
  induction l with
  | nil => intro _; rfl
  | cons a as ih =>
    intro h
    rw [List.filterMap_cons, h a (List.mem_cons_self a as),
      ih (fun x hx => h x (List.mem_cons_of_mem a hx))]

theorem loadRecords_saveContent (rs : List ChecksumRecord)
    (hhex : ∀ r ∈ rs, isHex64 r.Checksum = true)
    (hpath : ∀ r ∈ rs, noWhitespace r.FilePath = true) :
    loadRecords (saveContent rs) = sortRecords rs := by
  have hmem : ∀ r ∈ sortRecords rs, r ∈ rs := by
    intro r hmem
    exact (List.perm_insertionSort recordLe rs).subset hmem
  unfold loadRecords
  rw [saveContent_data]
  have hcomp : (sortRecords rs).map (fun r => lineChars r ++ ['\n']) =
      ((sortRecords rs).map lineChars).map (fun l => l ++ ['\n']) := by
    rw [List.map_map]
    rfl
  rw [hcomp, linesAcc_flatten _
    (by
      intro l hl
      rcases List.mem_map.mp hl with ⟨r, hr, rfl⟩
      exact lineChars_no_nl r (hhex r (hmem r hr)) (hpath r (hmem r hr)))
    (by
      intro l hl
      rcases List.mem_map.mp hl with ⟨r, hr, rfl⟩
      exact lineChars_no_cr r (hhex r (hmem r hr)) (hpath r (hmem r hr)))]
  rw [List.filterMap_map]
  exact filterMap_id_of_mem _ (sortRecords rs)
    (fun r hr => parse_lineChars r (hhex r (hmem r hr)) (hpath r (hmem r hr)))

/-- Claim C10: Save/Load round trip. For every ChecksumFile whose records
carry well-formed checksums (64 hex characters, the documented invariant of
`ChecksumRecord.Checksum`) and whitespace-free paths, `Load` after `Save`
recovers exactly the same (checksum, path) records (the persisted, sorted
sequence — a permutation of the original records). For a record whose path
contains a space, `Load` splits the line on whitespace and keeps only the
second field, truncating `my file.txt` to `my`, so the round trip does not
return the original record. -/
theorem save_load_round_trip :
    (∀ rs : List ChecksumRecord,
        (∀ r ∈ rs, isHex64 r.Checksum = true) →
        (∀ r ∈ rs, noWhitespace r.FilePath = true) →
          loadRecords (saveContent rs) = sortRecords rs
            ∧ (loadRecords (saveContent rs)).Perm rs)
      ∧ loadRecords (saveContent
          [⟨"e3b0c44298fc1c149afbf4c8996fb92427ae41e4649b934ca495991b7852b855",
            "my file.txt"⟩]) =
          [⟨"e3b0c44298fc1c149afbf4c8996fb92427ae41e4649b934ca495991b7852b855", "my"⟩] := by
  constructor
  · intro rs hhex hpath
    refine ⟨loadRecords_saveContent rs hhex hpath, ?_⟩
    rw [loadRecords_saveContent rs hhex hpath]
    exact List.perm_insertionSort recordLe rs
  · decide

theorem save_load_round_trip_witness :
    (∀ r ∈ [(⟨"ffffffffffffffffffffffffffffffffffffffffffffffffffffffffffffffff", "b.txt"⟩ : ChecksumRecord),
        ⟨"0123456789abcdef0123456789abcdef0123456789abcdef0123456789abcdef", "a.txt"⟩], isHex64 r.Checksum = true)
      ∧ (∀ r ∈ [(⟨"ffffffffffffffffffffffffffffffffffffffffffffffffffffffffffffffff", "b.txt"⟩ : ChecksumRecord),
          ⟨"0123456789abcdef0123456789abcdef0123456789abcdef0123456789abcdef", "a.txt"⟩], noWhitespace r.FilePath = true)
      ∧ (loadRecords (saveContent [(⟨"ffffffffffffffffffffffffffffffffffffffffffffffffffffffffffffffff", "b.txt"⟩ : ChecksumRecord),
            ⟨"0123456789abcdef0123456789abcdef0123456789abcdef0123456789abcdef", "a.txt"⟩]) =
          sortRecords [(⟨"ffffffffffffffffffffffffffffffffffffffffffffffffffffffffffffffff", "b.txt"⟩ : ChecksumRecord),
            ⟨"0123456789abcdef0123456789abcdef0123456789abcdef0123456789abcdef", "a.txt"⟩]
          ∧ (loadRecords (saveContent [(⟨"ffffffffffffffffffffffffffffffffffffffffffffffffffffffffffffffff", "b.txt"⟩ : ChecksumRecord),
              ⟨"0123456789abcdef0123456789abcdef0123456789abcdef0123456789abcdef", "a.txt"⟩])).Perm
            [(⟨"ffffffffffffffffffffffffffffffffffffffffffffffffffffffffffffffff", "b.txt"⟩ : ChecksumRecord),
              ⟨"0123456789abcdef0123456789abcdef0123456789abcdef0123456789abcdef", "a.txt"⟩]) :=
  ⟨by decide, by decide, save_load_round_trip.1 _ (by decide) (by decide)⟩

theorem compressBlock_length (h c : List Nat) : (compressBlock h c).length = 8 := rfl

theorem foldl_compressBlock_length (chunks : List (List Nat)) :
    ∀ h : List Nat, h.length = 8 → (chunks.foldl compressBlock h).length = 8 := by
  induction chunks with
  | nil => intro h hh; exact hh
  | cons c cs ih => intro h _; exact ih (compressBlock h c) (compressBlock_length h c)

theorem foldr_emit_length (ws : List Nat) (acc : List Nat) :
    (ws.foldr
      (fun w acc =>
        (w / 2 ^ 24) % 256 :: (w / 2 ^ 16) % 256 :: (w / 2 ^ 8) % 256 :: w % 256 :: acc)
      acc).length = 4 * ws.length + acc.length := by
  induction ws with
  | nil => simp
  | cons w rest ih =>
    simp only [List.foldr_cons, List.length_cons]
    rw [ih]
    ring

theorem sha256_length (msg : List Nat) : (sha256 msg).length = 32 := by
  unfold sha256
  rw [foldr_emit_length]
  rw [foldl_compressBlock_length _ H256 rfl]
  simp

theorem foldr_emit_lt256 (ws : List Nat) (acc : List Nat) (hacc : ∀ b ∈ acc, b < 256) :
    ∀ b ∈ ws.foldr
      (fun w acc =>
        (w / 2 ^ 24) % 256 :: (w / 2 ^ 16) % 256 :: (w / 2 ^ 8) % 256 :: w % 256 :: acc)
      acc, b < 256 := by
  induction ws with
  | nil => exact hacc
  | cons w rest ih =>
    intro b hb
    simp only [List.foldr_cons, List.mem_cons] at hb
    rcases hb with rfl | rfl | rfl | rfl | hb
    · exact Nat.mod_lt _ (by omega)
    · exact Nat.mod_lt _ (by omega)
    · exact Nat.mod_lt _ (by omega)
    · exact Nat.mod_lt _ (by omega)
    · exact ih b hb

theorem sha256_lt256 (msg : List Nat) : ∀ b ∈ sha256 msg, b < 256 := by
  unfold sha256
  exact foldr_emit_lt256 _ [] (by simp)

theorem hexDigit_isHexChar (n : Nat) (h : n < 16) : isHexChar (hexDigit n) = true := by
  interval_cases n <;> decide

theorem bytesToHex_length (bs : List Nat) : (bytesToHex bs).data.length = 2 * bs.length := by
  unfold bytesToHex
  induction bs with
  | nil => rfl
  | cons b rest ih =>
    simp only [List.foldr_cons, List.length_cons]
    simp only [List.length_cons] at ih ⊢
    omega

theorem bytesToHex_all_hex (bs : List Nat) (h : ∀ b ∈ bs, b < 256) :
    ∀ c ∈ (bytesToHex bs).data, isHexChar c = true := by
  unfold bytesToHex
  induction bs with
  | nil => intro c hc; simp at hc
  | cons b rest ih =>
    intro c hc
    simp only [List.foldr_cons, List.mem_cons] at hc
    rcases hc with rfl | rfl | hc
    · exact hexDigit_isHexChar _ (Nat.div_lt_of_lt_mul (by
        have := h b (List.mem_cons_self b rest)
        omega))
    · exact hexDigit_isHexChar _ (Nat.mod_lt _ (by omega))
    · exact ih (fun x hx => h x (List.mem_cons_of_mem b hx)) c hc

theorem isHex64_sha256Hex (msg : List Nat) : isHex64 (sha256Hex msg) = true := by
  unfold isHex64 sha256Hex
  rw [Bool.and_eq_true]
  constructor
  · simp only [decide_eq_true_eq]
    rw [bytesToHex_length, sha256_length]
  · rw [List.all_eq_true]
    intro c hc
    exact bytesToHex_all_hex _ (sha256_lt256 msg) c hc

theorem getLast_flatten_nl (ls : List (List Char)) (h : ls ≠ []) :
    ((ls.map (fun l => l ++ ['\n'])).flatten).getLast? = some '\n' := by
  induction ls with
  | nil => exact absurd rfl h
  | cons l rest ih =>
    cases rest with
    | nil => simp
    | cons l2 rest2 =>
      rw [List.map_cons, List.flatten_cons, List.getLast?_append, ih (by simp)]
      rfl

theorem endsWithNL_saveContent (rs : List ChecksumRecord) (h : rs ≠ []) :
    endsWithNL (saveContent rs) = true := by
  unfold endsWithNL
  rw [saveContent_data]
  have hs : sortRecords rs ≠ [] := by
    intro h0
    have := List.length_insertionSort recordLe rs
    rw [show List.insertionSort recordLe rs = sortRecords rs from rfl, h0] at this
    exact h (List.eq_nil_of_length_eq_zero this.symm)
  have hmap : (sortRecords rs).map (fun r => lineChars r ++ ['\n']) =
      ((sortRecords rs).map lineChars).map (fun l => l ++ ['\n']) := by
    rw [List.map_map]
    rfl
  rw [hmap, getLast_flatten_nl _ (by simpa using hs)]
  rfl

theorem splitLinesRaw_append_nl (l rest : List Char) (acc : List Char)
    (hNL : ∀ c ∈ l, c.toNat ≠ 10) :
    splitLinesRaw (l ++ '\n' :: rest) acc =
      (l.reverse ++ acc).reverse :: splitLinesRaw rest [] := by
  induction l generalizing acc with
  | nil => rfl
  | cons c cs ih =>
    have hc := hNL c (List.mem_cons_self c cs)
    have hcs : ∀ d ∈ cs, d.toNat ≠ 10 := fun d hd => hNL d (List.mem_cons_of_mem c hd)
    show splitLinesRaw (c :: (cs ++ '\n' :: rest)) acc = _
    simp only [splitLinesRaw]
    rw [if_neg hc, ih _ hcs]
    simp

theorem splitLinesRaw_flatten (ls : List (List Char))
    (hNL : ∀ l ∈ ls, ∀ c ∈ l, c.toNat ≠ 10) :
    splitLinesRaw ((ls.map (fun l => l ++ ['\n'])).flatten) [] = ls := by
  induction ls with
  | nil => rfl
  | cons l ls ih =>
    simp only [List.map_cons, List.flatten_cons]
    have hstep : (l ++ ['\n']) ++ (ls.map (fun l => l ++ ['\n'])).flatten =
        l ++ '\n' :: (ls.map (fun l => l ++ ['\n'])).flatten := by
      simp
    rw [hstep, splitLinesRaw_append_nl _ _ _ (hNL l (List.mem_cons_self l ls))]
    rw [List.append_nil, List.reverse_reverse]
    rw [ih (fun m hm => hNL m (List.mem_cons_of_mem l hm))]

theorem lineChars_no_nl_of_noNewline (r : ChecksumRecord) (hc : isHex64 r.Checksum = true)
    (hp : noNewline r.FilePath = true) : ∀ c ∈ lineChars r, c.toNat ≠ 10 := by
  simp only [isHex64, Bool.and_eq_true, decide_eq_true_eq, List.all_eq_true] at hc
  simp only [noNewline, List.all_eq_true, decide_eq_true_eq] at hp
  intro c hmem
  unfold lineChars at hmem
  rcases List.mem_append.mp hmem with hin | hin
  · exact nonspace_ne_nl (hexChar_not_space (hc.2 c hin))
  · rcases List.mem_cons.mp hin with rfl | hin
    · decide
    · rcases List.mem_cons.mp hin with rfl | hin
      · decide
      · rcases List.mem_cons.mp hin with rfl | hin
        · decide
        · rcases List.mem_cons.mp hin with rfl | hin
          · decide
          · exact hp c hin

set_option maxRecDepth 4000 in
/-- Claim C9, counterexample: the claim as stated fails for a record whose
relative path contains a newline byte. `Save` writes the path verbatim
(`Fprintf "%s  ./%s\n"`), so the one-record manifest for the path `a\nb`
consists of two newline-delimited lines, not "exactly one line per record",
and its second line does not have the `<64-hex-hash>  ./<path>` format. -/
theorem save_manifest_newline_counterexample :
    isHex64 "e3b0c44298fc1c149afbf4c8996fb92427ae41e4649b934ca495991b7852b855" = true
      ∧ ([(⟨"e3b0c44298fc1c149afbf4c8996fb92427ae41e4649b934ca495991b7852b855", "a\nb"⟩ : ChecksumRecord)]).length = 1
      ∧ (rawLines (saveContent
          [⟨"e3b0c44298fc1c149afbf4c8996fb92427ae41e4649b934ca495991b7852b855", "a\nb"⟩])).length = 2
      ∧ rawLines (saveContent
            [⟨"e3b0c44298fc1c149afbf4c8996fb92427ae41e4649b934ca495991b7852b855", "a\nb"⟩]) ≠
          (sortRecords
            [(⟨"e3b0c44298fc1c149afbf4c8996fb92427ae41e4649b934ca495991b7852b855", "a\nb"⟩ : ChecksumRecord)]).map saveLine := by
  decide

/-- Claim C9 (amended): for every manifest whose record paths contain no
newline byte — paths with spaces and other whitespace included — the
persisted content consists of exactly one line per record: the lines are the
records sorted by checksum ascending, each formatted `<checksum>  ./<path>`
(64-hex-char hash by the final conjunct, two spaces, the path prefixed
`./`), the file ends in a trailing newline whenever there is a record, and
there are as many lines as records. A record whose path contains a newline
is written verbatim and spans two lines (see the counterexample). The final
conjunct discharges the 64-hex format: every checksum `ComputeFileSHA256`
produces is 64 lowercase hex characters. -/
theorem save_manifest_format :
    (∀ rs : List ChecksumRecord,
        (∀ r ∈ rs, isHex64 r.Checksum = true) →
        (∀ r ∈ rs, noNewline r.FilePath = true) →
          rawLines (saveContent rs) = (sortRecords rs).map saveLine
            ∧ List.Sorted recordLe (sortRecords rs)
            ∧ (rawLines (saveContent rs)).length = rs.length
            ∧ (rs ≠ [] → endsWithNL (saveContent rs) = true))
      ∧ (∀ bytes : List Nat, isHex64 (ComputeFileSHA256 bytes) = true) := by
  constructor
  · intro rs hhex hpath
    have hmem : ∀ r ∈ sortRecords rs, r ∈ rs := by
      intro r hmem
      exact (List.perm_insertionSort recordLe rs).subset hmem
    have hlines : rawLines (saveContent rs) = (sortRecords rs).map saveLine := by
      unfold rawLines
      rw [saveContent_data]
      have hmap : (sortRecords rs).map (fun r => lineChars r ++ ['\n']) =
          ((sortRecords rs).map lineChars).map (fun l => l ++ ['\n']) := by
        rw [List.map_map]
        rfl
      rw [hmap, splitLinesRaw_flatten _
        (by
          intro l hl
          rcases List.mem_map.mp hl with ⟨r, hr, rfl⟩
          exact lineChars_no_nl_of_noNewline r (hhex r (hmem r hr)) (hpath r (hmem r hr)))]
      rw [List.map_map]
      apply List.map_congr_left
      intro r _
      have := saveLine_data r
      show String.mk (lineChars r) = saveLine r
      rw [← this]
    refine ⟨hlines, List.sorted_insertionSort recordLe rs, ?_, endsWithNL_saveContent rs⟩
    rw [hlines, List.length_map]
    exact List.length_insertionSort recordLe rs
  · exact isHex64_sha256Hex

set_option maxRecDepth 4000 in
/-- Claim C9, witness: the amended format statement at a one-record manifest
whose path `my file.txt` contains an ordinary space — a path the format
provably covers. -/
theorem save_manifest_format_witness :
    (∀ r ∈ [(⟨"e3b0c44298fc1c149afbf4c8996fb92427ae41e4649b934ca495991b7852b855", "my file.txt"⟩ : ChecksumRecord)],
        isHex64 r.Checksum = true)
      ∧ (∀ r ∈ [(⟨"e3b0c44298fc1c149afbf4c8996fb92427ae41e4649b934ca495991b7852b855", "my file.txt"⟩ : ChecksumRecord)],
          noNewline r.FilePath = true)
      ∧ (rawLines (saveContent
            [(⟨"e3b0c44298fc1c149afbf4c8996fb92427ae41e4649b934ca495991b7852b855", "my file.txt"⟩ : ChecksumRecord)]) =
            (sortRecords
              [(⟨"e3b0c44298fc1c149afbf4c8996fb92427ae41e4649b934ca495991b7852b855", "my file.txt"⟩ : ChecksumRecord)]).map saveLine
          ∧ List.Sorted recordLe (sortRecords
              [(⟨"e3b0c44298fc1c149afbf4c8996fb92427ae41e4649b934ca495991b7852b855", "my file.txt"⟩ : ChecksumRecord)])
          ∧ (rawLines (saveContent
              [(⟨"e3b0c44298fc1c149afbf4c8996fb92427ae41e4649b934ca495991b7852b855", "my file.txt"⟩ : ChecksumRecord)])).length =
              ([(⟨"e3b0c44298fc1c149afbf4c8996fb92427ae41e4649b934ca495991b7852b855", "my file.txt"⟩ : ChecksumRecord)]).length
          ∧ ([(⟨"e3b0c44298fc1c149afbf4c8996fb92427ae41e4649b934ca495991b7852b855", "my file.txt"⟩ : ChecksumRecord)] ≠ [] →
              endsWithNL (saveContent
                [(⟨"e3b0c44298fc1c149afbf4c8996fb92427ae41e4649b934ca495991b7852b855", "my file.txt"⟩ : ChecksumRecord)]) = true)) :=
  ⟨by decide, by decide, save_manifest_format.1 _ (by decide) (by decide)⟩

theorem leadsWith_append_self (pat rest : List Char) : leadsWith pat (pat ++ rest) = true := by
  induction pat with
  | nil => rfl
  | cons c cs ih =>
    show (c == c && leadsWith cs (cs ++ rest)) = true
    rw [ih]
    simp

theorem hasSubstr_append_mid (a pat b : List Char) : hasSubstr pat (a ++ (pat ++ b)) = true := by
  induction a with
  | nil =>
    show hasSubstr pat (pat ++ b) = true
    cases hp : pat ++ b with
    | nil =>
      have h1 : pat = [] := (List.append_eq_nil.mp hp).1
      show pat.isEmpty = true
      rw [h1]
      rfl
    | cons c cs =>
      show (leadsWith pat (c :: cs) || hasSubstr pat cs) = true
      conv_lhs => rw [show (c :: cs) = pat ++ b from hp.symm]
      rw [leadsWith_append_self]
      rfl
  | cons x xs ih =>
    show (leadsWith pat (x :: (xs ++ (pat ++ b))) || hasSubstr pat (xs ++ (pat ++ b))) = true
    rw [ih]
    simp

theorem containsDotBundle_suffix (x : String) : containsDotBundle (x ++ ".bundle") = true := by
  unfold containsDotBundle
  rw [String.data_append]
  have h := hasSubstr_append_mid x.data ".bundle".data []
  rw [List.append_nil] at h
  exact h

theorem containsDotBundle_childRel (bp rel : String) :
    containsDotBundle (bp ++ "/" ++ childRel rel ".bundle") = true := by
  unfold childRel
  by_cases h : rel = ""
  · rw [if_pos h]
    exact containsDotBundle_suffix (bp ++ "/")
  · rw [if_neg h, ← String.append_assoc, ← String.append_assoc]
    exact containsDotBundle_suffix (bp ++ "/" ++ rel ++ "/")

theorem walkCompute_bundle_child (bp rel : String) (e rest : FSEntry) :
    walkCompute bp rel (.dcons ".bundle" e rest) = walkCompute bp rel rest := by
  cases e with
  | file c =>
    show (if containsDotBundle (bp ++ "/" ++ childRel rel ".bundle") then []
          else [⟨ComputeFileSHA256 c, childRel rel ".bundle"⟩]) ++
        walkCompute bp rel rest = _
    rw [if_pos (containsDotBundle_childRel bp rel)]
    rfl
  | dnil => rfl
  | dcons m e2 sub =>
    show (if (".bundle" : String) = ".bundle" then []
          else walkCompute bp (childRel rel ".bundle") (.dcons m e2 sub)) ++
        walkCompute bp rel rest = _
    rw [if_pos rfl]
    rfl

theorem walkCompute_setChild_bundle (bp : String) (v : FSEntry) :
    ∀ (l : FSEntry) (rel : String),
      walkCompute bp rel (setChild ".bundle" v l) = walkCompute bp rel l := by
  intro l
  induction l with
  | file c =>
    intro rel
    show walkCompute bp rel (.dcons ".bundle" v .dnil) = walkCompute bp rel (.file c)
    rw [walkCompute_bundle_child]
    rfl
  | dnil =>
    intro rel
    show walkCompute bp rel (.dcons ".bundle" v .dnil) = walkCompute bp rel .dnil
    rw [walkCompute_bundle_child]
  | dcons m e rest ihe ihrest =>
    intro rel
    by_cases hm : m = ".bundle"
    · subst hm
      show walkCompute bp rel (.dcons ".bundle" v rest) = _
      rw [walkCompute_bundle_child, walkCompute_bundle_child]
    · have hset : setChild ".bundle" v (.dcons m e rest) =
          .dcons m e (setChild ".bundle" v rest) := by
        rw [setChild, if_neg hm]
      rw [hset]
      cases e with
      | file c =>
        show (if containsDotBundle (bp ++ "/" ++ childRel rel m) then []
              else [⟨ComputeFileSHA256 c, childRel rel m⟩]) ++
            walkCompute bp rel (setChild ".bundle" v rest) = _
        rw [ihrest rel]
        rfl
      | dnil =>
        show walkCompute bp rel (setChild ".bundle" v rest) = _
        rw [ihrest rel]
        rfl
      | dcons m2 e2 sub2 =>
        show (if m = ".bundle" then [] else walkCompute bp (childRel rel m) (.dcons m2 e2 sub2)) ++
            walkCompute bp rel (setChild ".bundle" v rest) = _
        rw [ihrest rel]
        rfl

theorem lookupChild_setChild (n : String) (v : FSEntry) :
    ∀ l : FSEntry, lookupChild n (setChild n v l) = some v := by
  intro l
  induction l with
  | file c => show lookupChild n (.dcons n v .dnil) = some v; simp [lookupChild]
  | dnil => show lookupChild n (.dcons n v .dnil) = some v; simp [lookupChild]
  | dcons m e rest ihe ihrest =>
    by_cases hm : m = n
    · subst hm
      rw [setChild, if_pos rfl]
      simp [lookupChild]
    · rw [setChild, if_neg hm]
      show lookupChild n (.dcons m e (setChild n v rest)) = some v
      rw [lookupChild, if_neg hm]
      exact ihrest

theorem setChild_shape (n : String) (v l : FSEntry) :
    ∃ m e rest, setChild n v l = .dcons m e rest := by
  cases l with
  | file c => exact ⟨n, v, .dnil, rfl⟩
  | dnil => exact ⟨n, v, .dnil, rfl⟩
  | dcons m e rest =>
    by_cases hm : m = n
    · exact ⟨m, v, rest, by rw [setChild, if_pos hm]⟩
    · exact ⟨m, e, setChild n v rest, by rw [setChild, if_neg hm]⟩

theorem computeRecords_dcons (bp : String) (m : String) (e rest : FSEntry) :
    computeRecords bp (.dcons m e rest) =
      if baseName bp = ".bundle" then [] else walkCompute bp "" (.dcons m e rest) := rfl

theorem computeRecords_setChild_bundle (bp : String) (v l : FSEntry)
    (h : ∀ cc, l ≠ FSEntry.file cc) :
    computeRecords bp (setChild ".bundle" v l) = computeRecords bp l := by
  obtain ⟨m, e, rest, hs⟩ := setChild_shape ".bundle" v l
  rw [hs]
  cases l with
  | file c => exact absurd rfl (h c)
  | dnil =>
    rw [computeRecords_dcons]
    show _ = if baseName bp = ".bundle" then [] else walkCompute bp "" .dnil
    by_cases hb : baseName bp = ".bundle"
    · rw [if_pos hb, if_pos hb]
    · rw [if_neg hb, if_neg hb, ← hs, walkCompute_setChild_bundle]
  | dcons m2 e2 rest2 =>
    rw [computeRecords_dcons, computeRecords_dcons]
    by_cases hb : baseName bp = ".bundle"
    · rw [if_pos hb, if_pos hb]
    · rw [if_neg hb, if_neg hb, ← hs, walkCompute_setChild_bundle]

theorem ensureBundleDir_eq_of_lookup (l : FSEntry)
    (hsome : (lookupChild ".bundle" l).isSome = true) : ensureBundleDir l = l := by
  cases l with
  | file c => rfl
  | dnil => simp [lookupChild] at hsome
  | dcons m e rest =>
    show (if (lookupChild ".bundle" (FSEntry.dcons m e rest)).isSome then
        FSEntry.dcons m e rest
      else setChild ".bundle" .dnil (FSEntry.dcons m e rest)) = _
    rw [if_pos hsome]

theorem lookup_ensureBundleDir (l : FSEntry) (h : ∀ cc, l ≠ FSEntry.file cc) :
    (lookupChild ".bundle" (ensureBundleDir l)).isSome = true := by
  cases l with
  | file c => exact absurd rfl (h c)
  | dnil =>
    show (lookupChild ".bundle" (if (lookupChild ".bundle" FSEntry.dnil).isSome then
        FSEntry.dnil else setChild ".bundle" .dnil FSEntry.dnil)).isSome = true
    rw [if_neg (by simp [lookupChild])]
    rw [lookupChild_setChild]
    rfl
  | dcons m e rest =>
    by_cases hs : (lookupChild ".bundle" (FSEntry.dcons m e rest)).isSome = true
    · rw [ensureBundleDir_eq_of_lookup _ hs]
      exact hs
    · show (lookupChild ".bundle" (if (lookupChild ".bundle"
          (FSEntry.dcons m e rest)).isSome then FSEntry.dcons m e rest
        else setChild ".bundle" .dnil (FSEntry.dcons m e rest))).isSome = true
      rw [if_neg hs, lookupChild_setChild]
      rfl

theorem writeBundleMeta_eq (l : FSEntry) (manifest a b c : String)
    (h : ∀ cc, l ≠ FSEntry.file cc) :
    writeBundleMeta l manifest a b c =
      setChild ".bundle"
        (setChild "TAGS.txt" (.file (strBytes c))
          (setChild "STATE.json" (.file (strBytes b))
            (setChild "SHA256SUM.txt" (.file (strBytes manifest))
              (setChild "META.json" (.file (strBytes a))
                ((lookupChild ".bundle" l).getD .dnil))))) l := by
  cases l with
  | file cc => exact absurd rfl (h cc)
  | dnil => rfl
  | dcons m e rest => rfl

theorem ensureBundleDir_not_file (l : FSEntry) (h : ∀ cc, l ≠ FSEntry.file cc) :
    ∀ cc, ensureBundleDir l ≠ FSEntry.file cc := by
  cases l with
  | file c => exact absurd rfl (h c)
  | dnil =>
    intro cc
    show (if (lookupChild ".bundle" FSEntry.dnil).isSome then FSEntry.dnil
        else setChild ".bundle" .dnil FSEntry.dnil) ≠ _
    rw [if_neg (by simp [lookupChild])]
    simp [setChild]
  | dcons m e rest =>
    intro cc
    show (if (lookupChild ".bundle" (FSEntry.dcons m e rest)).isSome then
        FSEntry.dcons m e rest
      else setChild ".bundle" .dnil (FSEntry.dcons m e rest)) ≠ _
    by_cases hs : (lookupChild ".bundle" (FSEntry.dcons m e rest)).isSome = true
    · rw [if_pos hs]
      simp
    · rw [if_neg hs]
      obtain ⟨m2, e2, r2, hshape⟩ := setChild_shape ".bundle" .dnil (FSEntry.dcons m e rest)
      rw [hshape]
      simp

theorem createOnFS_eq (bp : String) (l : FSEntry) (a b c : String)
    (h : ∀ cc, l ≠ FSEntry.file cc) :
    createOnFS bp l a b c =
      (saveContent (computeRecords bp (ensureBundleDir l)),
       ComputeBundleChecksum
         ((computeRecords bp (ensureBundleDir l)).map (fun r => r.Checksum)),
       writeBundleMeta (ensureBundleDir l)
         (saveContent (computeRecords bp (ensureBundleDir l))) a b c) := by
  cases l with
  | file cc => exact absurd rfl (h cc)
  | dnil => rfl
  | dcons m e rest => rfl

/-- Claim C6: `Create` is idempotent on unchanged content: running
`createOnFS` a second time on the tree the first run produced (the lock is
not part of the tree and was released) yields a byte-identical persisted
SHA256SUM.txt manifest and the same BundleIdentity, for every root tree and
any metadata/state/tags bytes (which differ between runs, e.g. timestamps):
the scan excludes the `.bundle` subtree, so the first run's writes do not
perturb the second run's records. -/
theorem create_idempotent_on_unchanged_content (bp : String) (root : FSEntry) (a b c a2 b2 c2 : String) :
    (createOnFS bp (createOnFS bp root a b c).2.2 a2 b2 c2).1 = (createOnFS bp root a b c).1
      ∧ (createOnFS bp (createOnFS bp root a b c).2.2 a2 b2 c2).2.1 =
        (createOnFS bp root a b c).2.1 := by
  by_cases hf : ∃ cc, root = FSEntry.file cc
  · obtain ⟨cc, rfl⟩ := hf
    exact ⟨rfl, rfl⟩
  · push_neg at hf
    have hnf : ∀ cc, root ≠ FSEntry.file cc := hf
    have h1 := createOnFS_eq bp root a b c hnf
    set l1 := ensureBundleDir root with hl1
    have hl1nf : ∀ cc, l1 ≠ FSEntry.file cc := ensureBundleDir_not_file root hnf
    have hl1some : (lookupChild ".bundle" l1).isSome = true :=
      lookup_ensureBundleDir root hnf
    set recs := computeRecords bp l1 with hrecs
    set manifest := saveContent recs with hman
    -- the tree after the first run
    have hw := writeBundleMeta_eq l1 manifest a b c hl1nf
    set bd := setChild "TAGS.txt" (.file (strBytes c))
        (setChild "STATE.json" (.file (strBytes b))
          (setChild "SHA256SUM.txt" (.file (strBytes manifest))
            (setChild "META.json" (.file (strBytes a))
              ((lookupChild ".bundle" l1).getD .dnil)))) with hbd
    have ht1 : (createOnFS bp root a b c).2.2 = setChild ".bundle" bd l1 := by
      rw [h1]
      exact hw
    have ht1nf : ∀ cc, setChild ".bundle" bd l1 ≠ FSEntry.file cc := by
      intro cc
      obtain ⟨m, e, rest, hshape⟩ := setChild_shape ".bundle" bd l1
      rw [hshape]
      simp
    have h2 := createOnFS_eq bp (setChild ".bundle" bd l1) a2 b2 c2 ht1nf
    have hens : ensureBundleDir (setChild ".bundle" bd l1) = setChild ".bundle" bd l1 := by
      apply ensureBundleDir_eq_of_lookup
      rw [lookupChild_setChild]
      rfl
    have hcomp : computeRecords bp (setChild ".bundle" bd l1) = recs := by
      rw [hrecs]
      exact computeRecords_setChild_bundle bp bd l1 hl1nf
    constructor
    · rw [ht1, h2, hens, hcomp, h1]
    · rw [ht1, h2, hens, hcomp, h1]

set_option maxRecDepth 4000 in
/-- Claim C2, counterexample: in a bundle rooted at `root` containing the
single regular file `my.bundle.txt` — which lies under no directory named
`.bundle` — the claim asserts a record for that file appears in the computed
manifest; the code skips every file whose full path contains `.bundle` as a
substring, so no record for it appears. -/
theorem computeRecords_excludes_substring_file :
    ¬ ∃ r ∈ computeRecords "root" (.dcons "my.bundle.txt" (.file [104]) .dnil),
        r.FilePath = "my.bundle.txt" := by
  decide

theorem hasFile_dnil {p : List String} {c : List Nat} (h : HasFile .dnil p c) : False := by
  cases h

theorem hasFile_file {c' : List Nat} {p : List String} {c : List Nat}
    (h : HasFile (.file c') p c) : p = [] ∧ c = c' := by
  cases h
  exact ⟨rfl, rfl⟩

theorem hasFile_dcons {n : String} {e rest : FSEntry} {p : List String} {c : List Nat} :
    HasFile (.dcons n e rest) p c ↔
      (∃ p', p = n :: p' ∧ HasFile e p' c) ∨ HasFile rest p c := by
  constructor
  · intro h
    cases h with
    | inChild _ _ h' => exact Or.inl ⟨_, rfl, h'⟩
    | skip _ _ h' => exact Or.inr h'
  · rintro (⟨p', rfl, h'⟩ | h')
    · exact HasFile.inChild n rest h'
    · exact HasFile.skip n e h'

theorem hasFile_ne_nil {l : FSEntry} {p : List String} {c : List Nat}
    (hwf : wellFormedDir l = true) (h : HasFile l p c) : p ≠ [] := by
  induction h with
  | fileSelf c => simp [wellFormedDir] at hwf
  | inChild n rest _ _ => simp
  | skip n e h' ih =>
    apply ih
    rw [wellFormedDir, Bool.and_eq_true] at hwf
    exact hwf.2

theorem joinPath_cons (n : String) (p : List String) (h : p ≠ []) :
    joinPath (n :: p) = n ++ "/" ++ joinPath p := by
  cases p with
  | nil => exact absurd rfl h
  | cons m ps => rfl

theorem append_ne_empty_left (a b : String) (h : a ≠ "") : a ++ b ≠ "" := by
  intro h0
  apply h
  have hd : (a ++ b).data = [] := by rw [h0]
  rw [String.data_append] at hd
  have ha : a.data = [] := (List.append_eq_nil.mp hd).1
  apply str_data_inj
  rw [ha]

theorem childRel_comp (rel n : String) (p : List String) (hn : n ≠ "") (hp : p ≠ []) :
    childRel (childRel rel n) (joinPath p) = childRel rel (joinPath (n :: p)) := by
  rw [joinPath_cons n p hp]
  unfold childRel
  by_cases hrel : rel = ""
  · rw [if_pos hrel, if_neg hn, if_pos hrel]
  · rw [if_neg hrel, if_neg (append_ne_empty_left _ _ (append_ne_empty_left _ _ hrel)),
      if_neg hrel, String.append_assoc, String.append_assoc,
      ← String.append_assoc n "/" (joinPath p)]

theorem containsDotBundle_mid (x y : String) :
    containsDotBundle (x ++ ".bundle" ++ y) = true := by
  unfold containsDotBundle
  rw [String.append_assoc, String.data_append, String.data_append]
  exact hasSubstr_append_mid x.data ".bundle".data y.data

theorem hasSubstr_append_left (pat t : List Char) (h : hasSubstr pat t = true) :
    ∀ s : List Char, hasSubstr pat (s ++ t) = true := by
  intro s
  induction s with
  | nil => exact h
  | cons c cs ih =>
    show (leadsWith pat (c :: (cs ++ t)) || hasSubstr pat (cs ++ t)) = true
    rw [ih]
    simp

theorem containsDotBundle_append_right (x y : String) (h : containsDotBundle y = true) :
    containsDotBundle (x ++ y) = true := by
  unfold containsDotBundle at h ⊢
  rw [String.data_append]
  exact hasSubstr_append_left _ _ h x.data

theorem containsDotBundle_head (y : String) : containsDotBundle (".bundle" ++ y) = true := by
  unfold containsDotBundle
  rw [String.data_append]
  exact hasSubstr_append_mid [] ".bundle".data y.data

theorem containsDotBundle_bundle_path (bp rel : String) (p' : List String) (hp' : p' ≠ []) :
    containsDotBundle (bp ++ "/" ++ childRel rel (joinPath (".bundle" :: p'))) = true := by
  rw [joinPath_cons _ _ hp']
  apply containsDotBundle_append_right
  unfold childRel
  by_cases hrel : rel = ""
  · rw [if_pos hrel, String.append_assoc]
    exact containsDotBundle_head _
  · rw [if_neg hrel]
    apply containsDotBundle_append_right
    rw [String.append_assoc]
    exact containsDotBundle_head _

theorem walkCompute_mem_iff (bp : String) :
    ∀ l : FSEntry, wellFormedDir l = true → ∀ (rel : String) (r : ChecksumRecord),
      (r ∈ walkCompute bp rel l ↔
        ∃ p c, HasFile l p c ∧
          r = ⟨ComputeFileSHA256 c, childRel rel (joinPath p)⟩ ∧
          containsDotBundle (bp ++ "/" ++ childRel rel (joinPath p)) = false) := by
  intro l
  induction l with
  | file c =>
    intro hwf
    simp [wellFormedDir] at hwf
  | dnil =>
    intro _ rel r
    constructor
    · intro hmem
      rw [show walkCompute bp rel .dnil = [] from rfl] at hmem
      simp at hmem
    · rintro ⟨p, c, hf, _, _⟩
      exact absurd hf hasFile_dnil
  | dcons n e rest ihe ihrest =>
    intro hwf rel r
    rw [wellFormedDir, Bool.and_eq_true, Bool.and_eq_true] at hwf
    obtain ⟨⟨hn, he⟩, hrest⟩ := hwf
    have hn' : n ≠ "" := by simpa using hn
    cases e with
    | file c =>
      rw [show walkCompute bp rel (.dcons n (.file c) rest) =
          (if containsDotBundle (bp ++ "/" ++ childRel rel n) then []
           else [⟨ComputeFileSHA256 c, childRel rel n⟩]) ++ walkCompute bp rel rest from rfl,
        List.mem_append, ihrest hrest rel r]
      constructor
      · rintro (hhead | htail)
        · by_cases hcont : containsDotBundle (bp ++ "/" ++ childRel rel n) = true
          · rw [if_pos hcont] at hhead
            simp at hhead
          · rw [if_neg hcont] at hhead
            rw [List.mem_singleton] at hhead
            refine ⟨[n], c, HasFile.inChild n rest (HasFile.fileSelf c), hhead, ?_⟩
            show containsDotBundle (bp ++ "/" ++ childRel rel n) = false
            simpa using hcont
        · obtain ⟨p, c', hf, hr, hcont⟩ := htail
          exact ⟨p, c', HasFile.skip n _ hf, hr, hcont⟩
      · rintro ⟨p, c', hf, hr, hcont⟩
        rcases hasFile_dcons.mp hf with ⟨p', rfl, hf'⟩ | hf'
        · obtain ⟨rfl, rfl⟩ := hasFile_file hf'
          left
          have hcont' : containsDotBundle (bp ++ "/" ++ childRel rel n) = false := hcont
          rw [if_neg (by rw [hcont']; simp)]
          rw [List.mem_singleton]
          exact hr
        · right
          exact ⟨p, c', hf', hr, hcont⟩
    | dnil =>
      rw [show walkCompute bp rel (.dcons n .dnil rest) = walkCompute bp rel rest from rfl,
        ihrest hrest rel r]
      constructor
      · rintro ⟨p, c', hf, hr, hcont⟩
        exact ⟨p, c', HasFile.skip n _ hf, hr, hcont⟩
      · rintro ⟨p, c', hf, hr, hcont⟩
        rcases hasFile_dcons.mp hf with ⟨p', rfl, hf'⟩ | hf'
        · exact absurd hf' hasFile_dnil
        · exact ⟨p, c', hf', hr, hcont⟩
    | dcons m2 e2 sub2 =>
      have hewf : wellFormedDir (.dcons m2 e2 sub2) = true := by
        simpa [isFileB] using he
      rw [show walkCompute bp rel (.dcons n (.dcons m2 e2 sub2) rest) =
          (if n = ".bundle" then []
           else walkCompute bp (childRel rel n) (.dcons m2 e2 sub2)) ++
            walkCompute bp rel rest from rfl,
        List.mem_append, ihrest hrest rel r]
      by_cases hb : n = ".bundle"
      · rw [if_pos hb]
        constructor
        · rintro (h0 | htail)
          · simp at h0
          · obtain ⟨p, c', hf, hr, hcont⟩ := htail
            exact ⟨p, c', HasFile.skip n _ hf, hr, hcont⟩
        · rintro ⟨p, c', hf, hr, hcont⟩
          rcases hasFile_dcons.mp hf with ⟨p', rfl, hf'⟩ | hf'
          · exfalso
            have hp' : p' ≠ [] := hasFile_ne_nil hewf hf'
            have htrue : containsDotBundle
                (bp ++ "/" ++ childRel rel (joinPath (n :: p'))) = true := by
              rw [hb]
              exact containsDotBundle_bundle_path bp rel p' hp'
            rw [hcont] at htrue
            exact Bool.false_ne_true htrue
          · right
            exact ⟨p, c', hf', hr, hcont⟩
      · rw [if_neg hb]
        constructor
        · rintro (hhead | htail)
          · rw [ihe hewf (childRel rel n) r] at hhead
            obtain ⟨p', c', hf', hr, hcont⟩ := hhead
            have hp' : p' ≠ [] := hasFile_ne_nil hewf hf'
            rw [childRel_comp rel n p' hn' hp'] at hr hcont
            exact ⟨n :: p', c', hasFile_dcons.mpr (Or.inl ⟨p', rfl, hf'⟩), hr, hcont⟩
          · obtain ⟨p, c', hf, hr, hcont⟩ := htail
            exact ⟨p, c', HasFile.skip n _ hf, hr, hcont⟩
        · rintro ⟨p, c', hf, hr, hcont⟩
          rcases hasFile_dcons.mp hf with ⟨p', rfl, hf'⟩ | hf'
          · left
            rw [ihe hewf (childRel rel n) r]
            have hp' : p' ≠ [] := hasFile_ne_nil hewf hf'
            rw [← childRel_comp rel n p' hn' hp'] at hr hcont
            exact ⟨p', c', hf', hr, hcont⟩
          · right
            exact ⟨p, c', hf', hr, hcont⟩

/-- Claim C2 (amended): a record appears in the manifest computed by
`ChecksumFile.Compute` exactly for the reachable files whose full walk path
(the bundle path joined with the relative path) does not contain `.bundle`
as a substring. The exclusion is a substring match on the whole path
(`strings.Contains(path, ".bundle")`), not an exact directory-name match:
a file merely containing `.bundle` in its name, such as `my.bundle.txt`,
yields no record even though it lies under no directory named `.bundle`
(see the counterexample), while directories named exactly `.bundle` are
additionally pruned — pruning that the substring condition subsumes, since
every path below such a directory contains `.bundle`. -/
theorem computeRecords_mem_characterization (bp : String) (root : FSEntry) (r : ChecksumRecord)
    (hwf : wellFormedDir root = true) (hbase : baseName bp ≠ ".bundle") :
    r ∈ computeRecords bp root ↔
      ∃ p c, HasFile root p c ∧ r = ⟨ComputeFileSHA256 c, joinPath p⟩ ∧
        containsDotBundle (bp ++ "/" ++ joinPath p) = false := by
  cases root with
  | file c => simp [wellFormedDir] at hwf
  | dnil =>
    rw [show computeRecords bp .dnil =
        if baseName bp = ".bundle" then [] else walkCompute bp "" .dnil from rfl,
      if_neg hbase]
    exact walkCompute_mem_iff bp .dnil rfl "" r
  | dcons m e rest =>
    rw [computeRecords_dcons, if_neg hbase]
    exact walkCompute_mem_iff bp (.dcons m e rest) hwf "" r

set_option maxRecDepth 4000 in
theorem computeRecords_mem_characterization_witness :
    wellFormedDir (.dcons "a.txt" (.file [104]) .dnil) = true
      ∧ baseName "root" ≠ ".bundle"
      ∧ ((⟨ComputeFileSHA256 [104], "a.txt"⟩ : ChecksumRecord) ∈
          computeRecords "root" (.dcons "a.txt" (.file [104]) .dnil) ↔
        ∃ p c, HasFile (.dcons "a.txt" (.file [104]) .dnil) p c ∧
          (⟨ComputeFileSHA256 [104], "a.txt"⟩ : ChecksumRecord) =
            ⟨ComputeFileSHA256 c, joinPath p⟩ ∧
          containsDotBundle ("root" ++ "/" ++ joinPath p) = false) :=
  ⟨by decide, by decide,
    computeRecords_mem_characterization "root" (.dcons "a.txt" (.file [104]) .dnil) _ (by decide) (by decide)⟩
